import Mathlib

/-!
Verification of the watercolor stroke engine (the `brush` / `strokes` classes
of the p5.js sketches) and of the ACF2+ pitch detector `acf2plus`.

Points are modelled with exact rational coordinates.  The p5 `random` draws
are made explicit parameters (streams of offsets, a drawn layer total, a
drawn round count), so every definition is a pure function of its inputs.
Array mutation (`this.vertices = v`, `splice`, element-wise copying in the
`strokes` constructor) is modelled with an explicit store mapping array
references to their current contents.
-/

/-- A 2D point: an (x, y) pair of canvas coordinates. -/
structure Pt where
  x : ℚ
  y : ℚ
deriving DecidableEq, Repr

/-- The origin, used as the (never relevant) default for `List.getD` reads
that are always in range in the source. -/
def Pt.zero : Pt := ⟨0, 0⟩

/-- One new paint vertex of `brush.deform()`: the midpoint of `a` and `b`
plus the random offset `o` (source: `x = (a[0] + b[0]) / 2 +
random(-brushRadius, brushRadius)`, likewise for `y`). -/
def midAdd (a b o : Pt) : Pt :=
  ⟨(a.x + b.x) / 2 + o.x, (a.y + b.y) / 2 + o.y⟩

/-- The `newVertices` array built by one `brush.deform()` call on `vs`:
for `i = 0 .. vs.length - 2` the midpoint of `vs[i]` and `vs[i + 1]` plus an
offset, then one extra vertex from `vs[0]` and `vs[vs.length - 1]`.
Here `off i` stands for the pair of `random(-brushRadius, brushRadius)`
draws used for the `i`-th generated vertex. -/
def newVerts (off : ℕ → Pt) (vs : List Pt) : List Pt :=
  ((List.range (vs.length - 1)).map fun i =>
    midAdd (vs.getD i Pt.zero) (vs.getD (i + 1) Pt.zero) (off i))
  ++ [midAdd (vs.getD 0 Pt.zero) (vs.getD (vs.length - 1) Pt.zero)
        (off (vs.length - 1))]

/-- JS `vertices.splice(1, 0, a)`: insert `a` at index 1 (on an empty array
the start index clamps to 0, so the result is `[a]`). -/
def spliceAt1 (vs : List Pt) (a : Pt) : List Pt :=
  match vs with
  | [] => [a]
  | v :: rest => v :: a :: rest

/-- `brush.deform()` as a function of the vertex list: generate the
`newVertices`, then splice each of them in turn into the list at index 1.
The `this.newVertices` field is reset to `[]` at the end of every call, so
it is not part of the persistent state. -/
def deform (off : ℕ → Pt) (vs : List Pt) : List Pt :=
  (newVerts off vs).foldl spliceAt1 vs

/-- `k` successive `deform()` rounds; `offs r` is the offset stream used in
round `r` (rounds are consumed from `k - 1` down to `0`). -/
def deformK (offs : ℕ → ℕ → Pt) : ℕ → List Pt → List Pt
  | 0, vs => vs
  | k + 1, vs => deformK offs k (deform (offs k) vs)

theorem spliceAt1_length (vs : List Pt) (a : Pt) :
    (spliceAt1 vs a).length = vs.length + 1 := by
  cases vs <;> simp [spliceAt1]

theorem foldl_spliceAt1_length (l : List Pt) (vs : List Pt) :
    (l.foldl spliceAt1 vs).length = vs.length + l.length := by
  induction l generalizing vs with
  | nil => simp
  | cons a l ih => simp [List.foldl_cons, ih, spliceAt1_length]; omega

theorem newVerts_length (off : ℕ → Pt) (vs : List Pt) :
    (newVerts off vs).length = (vs.length - 1) + 1 := by
  simp [newVerts]

/-- One `deform()` call on `n ≥ 1` vertices adds exactly `n` vertices. -/
theorem deform_length (off : ℕ → Pt) (vs : List Pt) (h : 1 ≤ vs.length) :
    (deform off vs).length = 2 * vs.length := by
  rw [deform, foldl_spliceAt1_length, newVerts_length]
  omega

/-- Claim C1: for every brush whose vertex list has `n ≥ 1` vertices, one
`deform()` call adds exactly `n` new vertices and removes none, so after `k`
deform rounds the vertex count is exactly `n * 2 ^ k`. -/
theorem deform_growth_law (offs : ℕ → ℕ → Pt) (k : ℕ) (vs : List Pt)
    (h : 1 ≤ vs.length) :
    (deformK offs k vs).length = vs.length * 2 ^ k := by
  induction k generalizing vs with
  | zero => simp [deformK]
  | succ k ih =>
      have h2 : (deform (offs k) vs).length = 2 * vs.length :=
        deform_length _ _ h
      have h1 : 1 ≤ (deform (offs k) vs).length := by omega
      calc (deformK offs (k + 1) vs).length
          = (deformK offs k (deform (offs k) vs)).length := rfl
        _ = (deform (offs k) vs).length * 2 ^ k := ih _ h1
        _ = vs.length * 2 ^ (k + 1) := by rw [h2]; ring

/-- Witness for C1: three rounds on a single-vertex brush give 8 vertices. -/
theorem deform_growth_law_witness :
    (deformK (fun _ _ => Pt.zero) 3 [Pt.zero]).length = 8 := by
  have h := deform_growth_law (fun _ _ => Pt.zero) 3 [Pt.zero] (by simp)
  simpa using h

theorem foldl_spliceAt1_cons (l : List Pt) (v : Pt) (rest : List Pt) :
    l.foldl spliceAt1 (v :: rest) = v :: l.reverse ++ rest := by
  induction l generalizing rest with
  | nil => simp
  | cons a l ih => simp [List.foldl_cons, spliceAt1, ih]

/-- Claim C2: the `n` new points of one `deform()` are generated in source
order (adjacent pairs, then the wrap-around pair built from `vs[0]` and
`vs[n - 1]`), and each is spliced in at index 1 in generation order, so the
result is `v0`, then the new points in reverse generation order, then
`v1 .. v_{n-1}`; in particular one round on a single-vertex brush `[p]`
yields exactly `[p, p + offset]`. -/
theorem deform_insert_at_one (off : ℕ → Pt) (v : Pt) (rest : List Pt) :
    deform off (v :: rest) = v :: (newVerts off (v :: rest)).reverse ++ rest ∧
    ∀ p : Pt, deform off [p] = [p, ⟨p.x + (off 0).x, p.y + (off 0).y⟩] := by
  constructor
  · exact foldl_spliceAt1_cons _ _ _
  · intro p
    have hnv : newVerts off [p] = [(⟨p.x + (off 0).x, p.y + (off 0).y⟩ : Pt)] := by
      simp only [newVerts, List.length_cons, List.length_nil]
      norm_num [List.getD, midAdd]
    show (newVerts off [p]).foldl spliceAt1 [p] = _
    rw [hnv]
    rfl

/-!
The JS arrays are mutable objects: `this.vertices = v` in the `brush`
constructor stores a reference, `splice` mutates in place, and the
`strokes` constructor copies the source array element by element before
constructing each layer.  We model this with an explicit store mapping
array references (naturals) to their current contents.
-/

/-- The array store: contents of every array reference, plus the next fresh
reference to be handed out by an allocation. -/
structure Store where
  arrs : ℕ → List Pt
  next : ℕ

/-- Overwrite the contents of reference `r`. -/
def updateArr (s : Store) (r : ℕ) (v : List Pt) : Store :=
  ⟨fun q => if q = r then v else s.arrs q, s.next⟩

/-- A `brush` object.  Only the `vertices` field matters for the vertex
claims: `newVertices` is `[]` outside `deform()` and the color is fixed at
construction and never touched again. -/
structure Brush where
  vertices : ℕ
deriving DecidableEq, Repr

/-- The `brush` constructor: `this.vertices = v` stores the caller's array
reference itself, performing no copy. -/
def brushNew (v : ℕ) : Brush := ⟨v⟩

/-- `brush.deform()` acting on the store: the array behind `this.vertices`
is replaced in place by its deformed contents. -/
def brushDeform (off : ℕ → Pt) (b : Brush) (s : Store) : Store :=
  updateArr s b.vertices (deform off (s.arrs b.vertices))

/-- The layer loop of the `strokes` constructor: `n` times, copy `src`
element by element into a fresh array (`vertices.push(brushObject.vertices[j])`)
and push `new brush(vertices)` onto the layer list. -/
def allocLayers (src : List Pt) : ℕ → Store → List Brush × Store
  | 0, s => ([], s)
  | n + 1, s =>
      let r := s.next
      let s' : Store := ⟨fun q => if q = r then src else s.arrs q, s.next + 1⟩
      let p := allocLayers src n s'
      (brushNew r :: p.1, p.2)

theorem allocLayers_fst (src : List Pt) (n : ℕ) (s : Store) :
    (allocLayers src n s).1 = (List.range n).map fun i => brushNew (s.next + i) := by
  induction n generalizing s with
  | zero => simp [allocLayers]
  | succ n ih =>
      simp only [allocLayers, ih]
      rw [List.range_succ_eq_map, List.map_cons, List.map_map]
      congr 1
      apply List.map_congr_left
      intro i _
      simp only [Function.comp_apply, brushNew, Brush.mk.injEq,
        Nat.succ_eq_add_one]
      omega

theorem allocLayers_arrs (src : List Pt) (n : ℕ) (s : Store) (r : ℕ) :
    ((allocLayers src n s).2).arrs r =
      if s.next ≤ r ∧ r < s.next + n then src else s.arrs r := by
  induction n generalizing s with
  | zero =>
      simp only [allocLayers]
      rw [if_neg (by omega)]
  | succ n ih =>
      simp only [allocLayers]
      rw [ih]
      by_cases h1 : s.next + 1 ≤ r ∧ r < s.next + 1 + n
      · rw [if_pos h1, if_pos (by omega)]
      · rw [if_neg h1]
        by_cases h2 : r = s.next
        · simp [h2]
        · simp only [if_neg h2]
          rw [if_neg (by omega)]

/-- Iteration count of the JS loop `for (let i = 0; i < t; i++)` when the
bound `t` is an arbitrary number (p5 `random(a, b)` returns a float): the
loop body runs for every natural `i` with `i < t`, i.e. `⌈t⌉` times when
`t > 0` and never otherwise. -/
def jsLoopCount (t : ℚ) : ℕ := (Int.ceil t).toNat

/-- Characterization justifying `jsLoopCount`: iteration `i` runs exactly
when `i < t` holds for the JS comparison. -/
theorem jsLoopCount_spec (t : ℚ) (i : ℕ) : i < jsLoopCount t ↔ (i : ℚ) < t := by
  rw [jsLoopCount, Int.lt_toNat, Int.lt_ceil]
  norm_cast

/-- A `strokes` object: the drawn total (`this.total = random(a, b)`, a
number, stored as drawn) and the layer list. -/
structure Strokes where
  total : ℚ
  layers : List Brush

/-- The `strokes` constructor, parameterized by the drawn `total` value `t`:
store `t` and run the layer loop `for (let i = 0; i < this.total; i++)`,
which executes `jsLoopCount t` times, each time allocating a fresh
element-wise copy of the source brush's vertex array. -/
def strokesNew (t : ℚ) (src : List Pt) (s : Store) : Strokes × Store :=
  let p := allocLayers src (jsLoopCount t) s
  (⟨t, p.1⟩, p.2)

theorem strokesNew_layers (t : ℚ) (src : List Pt) (s : Store) :
    (strokesNew t src s).1.layers =
      (List.range (jsLoopCount t)).map fun i => brushNew (s.next + i) := by
  simp [strokesNew, allocLayers_fst]

theorem strokesNew_layers_length (t : ℚ) (src : List Pt) (s : Store) :
    (strokesNew t src s).1.layers.length = jsLoopCount t := by
  simp [strokesNew_layers]

theorem strokesNew_get (t : ℚ) (src : List Pt) (s : Store) (i : ℕ)
    (hi : i < (strokesNew t src s).1.layers.length) :
    (strokesNew t src s).1.layers.get ⟨i, hi⟩ = brushNew (s.next + i) := by
  have h := strokesNew_layers t src s
  have hi' : i < jsLoopCount t := by
    rw [← strokesNew_layers_length t src s]; exact hi
  rw [List.get_of_eq h]
  simp

theorem strokesNew_arrs (t : ℚ) (src : List Pt) (s : Store) (r : ℕ) :
    ((strokesNew t src s).2).arrs r =
      if s.next ≤ r ∧ r < s.next + jsLoopCount t then src else s.arrs r := by
  simp [strokesNew, allocLayers_arrs]

/-- Claim C4: every layer of a
freshly constructed `strokes` bundle holds its own copy of the source vertex
list, so right after construction all layers have equal vertex sequences,
and `deform()` on one layer leaves every other layer's vertex sequence
unchanged. -/
theorem strokes_layers_independent (t : ℚ) (src : List Pt) (s : Store)
    (off : ℕ → Pt) (i j : ℕ)
    (hi : i < (strokesNew t src s).1.layers.length)
    (hj : j < (strokesNew t src s).1.layers.length)
    (hij : i ≠ j) :
    ((strokesNew t src s).2).arrs
        ((strokesNew t src s).1.layers.get ⟨i, hi⟩).vertices = src ∧
    ((strokesNew t src s).2).arrs
        ((strokesNew t src s).1.layers.get ⟨j, hj⟩).vertices = src ∧
    (brushDeform off ((strokesNew t src s).1.layers.get ⟨i, hi⟩)
        ((strokesNew t src s).2)).arrs
        ((strokesNew t src s).1.layers.get ⟨j, hj⟩).vertices =
      ((strokesNew t src s).2).arrs
        ((strokesNew t src s).1.layers.get ⟨j, hj⟩).vertices := by
  have hlen := strokesNew_layers_length t src s
  have hgi := strokesNew_get t src s i hi
  have hgj := strokesNew_get t src s j hj
  have hi' : i < jsLoopCount t := by omega
  have hj' : j < jsLoopCount t := by omega
  refine ⟨?_, ?_, ?_⟩
  · rw [hgi, strokesNew_arrs]
    exact if_pos (by simp [brushNew]; omega)
  · rw [hgj, strokesNew_arrs]
    exact if_pos (by simp [brushNew]; omega)
  · rw [hgi, hgj, brushDeform, updateArr]
    simp only [brushNew]
    rw [if_neg (by omega)]

/-- Witness for C4: a concrete bundle of 25 layers over the anchor (1, 2);
layers 0 and 1 both hold the anchor list, and deforming layer 0 leaves
layer 1 untouched. -/
theorem strokes_layers_independent_witness :
    (((strokesNew 25 [⟨1, 2⟩] ⟨fun _ => [], 0⟩).2).arrs
        ((strokesNew 25 [⟨1, 2⟩] ⟨fun _ => [], 0⟩).1.layers.get
          ⟨0, by decide⟩).vertices = [⟨1, 2⟩]) ∧
    ((brushDeform (fun _ => Pt.zero)
        ((strokesNew 25 [⟨1, 2⟩] ⟨fun _ => [], 0⟩).1.layers.get ⟨0, by decide⟩)
        ((strokesNew 25 [⟨1, 2⟩] ⟨fun _ => [], 0⟩).2)).arrs
        ((strokesNew 25 [⟨1, 2⟩] ⟨fun _ => [], 0⟩).1.layers.get
          ⟨1, by decide⟩).vertices =
      ((strokesNew 25 [⟨1, 2⟩] ⟨fun _ => [], 0⟩).2).arrs
        ((strokesNew 25 [⟨1, 2⟩] ⟨fun _ => [], 0⟩).1.layers.get
          ⟨1, by decide⟩).vertices) := by
  have h := strokes_layers_independent 25 [⟨1, 2⟩] ⟨fun _ => [], 0⟩
    (fun _ => Pt.zero) 0 1 (by decide) (by decide) (by decide)
  exact ⟨h.1, h.2.2⟩

/-- Claim C3 counterexample: construct a brush directly on the caller's
array (reference 0, holding the single anchor (100, 100)) and call
`deform()` once: the caller's array has changed, so the constructor took no
copy. -/
theorem brush_ctor_no_copy_cex :
    (brushDeform (fun _ => Pt.zero) (brushNew 0)
        ⟨fun _ => [⟨100, 100⟩], 1⟩).arrs 0 ≠ [(⟨100, 100⟩ : Pt)] := by
  decide

/-- Claim C3 (amended): the `brush` constructor stores the caller's vertex
array by reference (`this.vertices = v`, no copy), so `deform()` mutates the
caller's array in place: afterwards the caller's array holds the deformed
list, which for a nonempty array always differs from the original.  (Layer
independence is instead provided by the `strokes` constructor, which copies
the list before constructing each layer.) -/
theorem brush_ctor_aliases (off : ℕ → Pt) (s : Store) (r : ℕ)
    (h : s.arrs r ≠ []) :
    (brushDeform off (brushNew r) s).arrs r = deform off (s.arrs r) ∧
    (brushDeform off (brushNew r) s).arrs r ≠ s.arrs r := by
  have harr : (brushDeform off (brushNew r) s).arrs r = deform off (s.arrs r) := by
    simp [brushDeform, brushNew, updateArr]
  refine ⟨harr, ?_⟩
  rw [harr]
  intro heq
  have h1 : 1 ≤ (s.arrs r).length := by
    cases hh : s.arrs r with
    | nil => exact absurd hh h
    | cons a l => simp [hh]
  have h2 := deform_length off (s.arrs r) h1
  rw [heq] at h2
  omega

/-- Witness for the amended C3: with the caller's array at reference 0
holding [(3, 4)], one `deform()` through the constructed brush changes the
caller's array. -/
theorem brush_ctor_aliases_witness :
    (brushDeform (fun _ => Pt.zero) (brushNew 0)
        ⟨fun _ => [⟨3, 4⟩], 1⟩).arrs 0 ≠ [(⟨3, 4⟩ : Pt)] :=
  (brush_ctor_aliases (fun _ => Pt.zero) ⟨fun _ => [⟨3, 4⟩], 1⟩ 0 (by decide)).2

/-- The inner loop of `strokes.deform()`, starting at layer index `i`:
deform each layer of `layers` once, in order.  `off j` is the offset stream
used for the layer with index `j`. -/
def deformLayersFrom (off : ℕ → ℕ → Pt) : ℕ → List Brush → Store → Store
  | _, [], s => s
  | i, b :: rest, s => deformLayersFrom off (i + 1) rest (brushDeform (off i) b s)

/-- Bundle-level deformation with drawn round count `k`: `k` times, deform
every layer once.  The sketch.js `strokes.deform()` is the case `k = 1`
(and `paint` makes five successive such calls); the variant drawing
`for (let i = random(8); i > 0; i--)` draws once per call and runs the inner
loop that many times, the same count for every layer.  `off r j` is the
offset stream of round `r` for layer `j`. -/
def strokesDeform (off : ℕ → ℕ → ℕ → Pt) : ℕ → List Brush → Store → Store
  | 0, _, s => s
  | k + 1, layers, s =>
      strokesDeform off k layers (deformLayersFrom (off k) 0 layers s)

theorem deformLayersFrom_notMem (off : ℕ → ℕ → Pt) (layers : List Brush)
    (i : ℕ) (s : Store) (r : ℕ) (h : ∀ b ∈ layers, b.vertices ≠ r) :
    (deformLayersFrom off i layers s).arrs r = s.arrs r := by
  induction layers generalizing i s with
  | nil => rfl
  | cons b rest ih =>
      have hb : b.vertices ≠ r := h b (List.mem_cons_self _ _)
      simp only [deformLayersFrom]
      rw [ih _ _ fun b' hb' => h b' (List.mem_cons_of_mem _ hb')]
      simp only [brushDeform, updateArr]
      rw [if_neg (Ne.symm hb)]

theorem deformLayersFrom_get (off : ℕ → ℕ → Pt) (layers : List Brush)
    (hnd : (layers.map Brush.vertices).Nodup) (i : ℕ) (s : Store)
    (j : ℕ) (hj : j < layers.length) :
    (deformLayersFrom off i layers s).arrs (layers.get ⟨j, hj⟩).vertices =
      deform (off (i + j)) (s.arrs (layers.get ⟨j, hj⟩).vertices) := by
  induction layers generalizing i s j with
  | nil => exact absurd hj (by simp)
  | cons b rest ih =>
      rw [List.map_cons, List.nodup_cons] at hnd
      cases j with
      | zero =>
          have hb : ∀ b' ∈ rest, b'.vertices ≠ b.vertices := by
            intro b' hb' heq
            exact hnd.1 (heq ▸ List.mem_map_of_mem Brush.vertices hb')
          simp only [deformLayersFrom, List.get]
          rw [deformLayersFrom_notMem off rest (i + 1) _ _ hb]
          simp [brushDeform, updateArr]
      | succ j =>
          simp only [deformLayersFrom, List.get]
          have hj' : j < rest.length := by
            simpa using hj
          have hne : (rest.get ⟨j, hj'⟩).vertices ≠ b.vertices := by
            intro heq
            exact hnd.1
              (heq ▸ List.mem_map_of_mem Brush.vertices (rest.get_mem _ _))
          rw [ih hnd.2 (i + 1) _ j hj']
          simp only [brushDeform, updateArr]
          rw [if_neg hne]
          have hij : i + 1 + j = i + (j + 1) := by omega
          rw [hij]

theorem strokesDeform_get (off : ℕ → ℕ → ℕ → Pt) (k : ℕ)
    (layers : List Brush) (hnd : (layers.map Brush.vertices).Nodup)
    (s : Store) (j : ℕ) (hj : j < layers.length) :
    (strokesDeform off k layers s).arrs (layers.get ⟨j, hj⟩).vertices =
      deformK (fun r => off r j) k (s.arrs (layers.get ⟨j, hj⟩).vertices) := by
  induction k generalizing s with
  | zero => rfl
  | succ k ih =>
      show (strokesDeform off k layers _).arrs _ = _
      rw [ih, deformLayersFrom_get (off k) layers hnd 0 s j hj]
      simp [deformK]

theorem deformK_length_congr (offs offs' : ℕ → ℕ → Pt) (k : ℕ)
    (vs vs' : List Pt) (h : vs.length = vs'.length) :
    (deformK offs k vs).length = (deformK offs' k vs').length := by
  induction k generalizing vs vs' with
  | zero => simpa [deformK] using h
  | succ k ih =>
      apply ih
      rw [deform, deform, foldl_spliceAt1_length, foldl_spliceAt1_length,
        newVerts_length, newVerts_length, h]

/-- Claim C5: one bundle-level deform call applies the same drawn round
count `k` to every layer (layer `j` ends with exactly the `k`-fold
deformation of its own list), so layers entering with equal vertex counts
leave with equal vertex counts; since this is stated as an invariant it
covers any sequence of bundle-level deform calls. -/
theorem strokes_equal_rounds (off : ℕ → ℕ → ℕ → Pt) (k : ℕ)
    (layers : List Brush) (hnd : (layers.map Brush.vertices).Nodup)
    (s : Store)
    (hlen : ∀ i (hi : i < layers.length) j (hj : j < layers.length),
      (s.arrs (layers.get ⟨i, hi⟩).vertices).length =
        (s.arrs (layers.get ⟨j, hj⟩).vertices).length) :
    (∀ j (hj : j < layers.length),
      (strokesDeform off k layers s).arrs (layers.get ⟨j, hj⟩).vertices =
        deformK (fun r => off r j) k (s.arrs (layers.get ⟨j, hj⟩).vertices)) ∧
    (∀ i (hi : i < layers.length) j (hj : j < layers.length),
      ((strokesDeform off k layers s).arrs
          (layers.get ⟨i, hi⟩).vertices).length =
        ((strokesDeform off k layers s).arrs
          (layers.get ⟨j, hj⟩).vertices).length) := by
  refine ⟨fun j hj => strokesDeform_get off k layers hnd s j hj, ?_⟩
  intro i hi j hj
  rw [strokesDeform_get off k layers hnd s i hi,
    strokesDeform_get off k layers hnd s j hj]
  exact deformK_length_congr _ _ k _ _ (hlen i hi j hj)

/-- Witness for C5: two layers at references 0 and 1, both holding one
anchor point; after a bundle deform of one round their vertex counts agree. -/
theorem strokes_equal_rounds_witness :
    ((strokesDeform (fun _ _ _ => Pt.zero) 1 [⟨0⟩, ⟨1⟩]
        ⟨fun _ => [⟨5, 5⟩], 2⟩).arrs 0).length =
      ((strokesDeform (fun _ _ _ => Pt.zero) 1 [⟨0⟩, ⟨1⟩]
        ⟨fun _ => [⟨5, 5⟩], 2⟩).arrs 1).length := by
  have h := (strokes_equal_rounds (fun _ _ _ => Pt.zero) 1 [⟨0⟩, ⟨1⟩]
    (by decide) ⟨fun _ => [⟨5, 5⟩], 2⟩ (fun i hi j hj => rfl)).2
    0 (by decide) 1 (by decide)
  simpa using h

/-- Claim C6 counterexample: the draw `total = 21/2` lies in the configured
range [10, 30), yet it is not an integer, and the constructor builds 11
layers — not `total` many: `this.total` is a float and the bundle holds
`⌈total⌉` layers. -/
theorem strokes_total_not_integer_cex :
    (10 : ℚ) ≤ 21 / 2 ∧ (21 / 2 : ℚ) < 30 ∧
    (strokesNew (21 / 2) [Pt.zero] ⟨fun _ => [], 0⟩).1.total = 21 / 2 ∧
    (¬ ∃ n : ℤ, (21 / 2 : ℚ) = (n : ℚ)) ∧
    (strokesNew (21 / 2) [Pt.zero] ⟨fun _ => [], 0⟩).1.layers.length = 11 ∧
    (((strokesNew (21 / 2) [Pt.zero] ⟨fun _ => [], 0⟩).1.layers.length : ℚ)
      ≠ 21 / 2) := by
  have hc : Int.ceil (21 / 2 : ℚ) = 11 := by
    rw [Int.ceil_eq_iff]
    norm_num
  have hlen : (strokesNew (21 / 2) [Pt.zero]
      ⟨fun _ => [], 0⟩).1.layers.length = 11 := by
    rw [strokesNew_layers_length, jsLoopCount, hc]
    rfl
  refine ⟨by norm_num, by norm_num, rfl, ?_, hlen, ?_⟩
  · rintro ⟨n, hn⟩
    have h1 : (21 : ℚ) = 2 * (n : ℚ) := by linarith
    have h2 : (21 : ℤ) = 2 * n := by exact_mod_cast h1
    omega
  · rw [hlen]
    norm_num

/-- Claim C6 (amended): for a bundle constructed with draw
`total = random(a, b)` (so `a ≤ total < b`), `this.total` stores the drawn
number itself (not necessarily an integer), and the constructor builds
`⌈total⌉` layers — an integer count `c` with `a ≤ c ≤ b`, fixed for the
bundle's lifetime. -/
theorem strokes_layer_count_bounds (t : ℚ) (a b : ℤ) (src : List Pt)
    (s : Store) (h0 : 0 ≤ a) (ha : (a : ℚ) ≤ t) (hb : t < (b : ℚ)) :
    (strokesNew t src s).1.total = t ∧
    (strokesNew t src s).1.layers.length = jsLoopCount t ∧
    a ≤ ((strokesNew t src s).1.layers.length : ℤ) ∧
    ((strokesNew t src s).1.layers.length : ℤ) ≤ b := by
  have hlen := strokesNew_layers_length t src s
  have h1 : a ≤ Int.ceil t := by
    have h2 : (a : ℚ) ≤ ((Int.ceil t : ℤ) : ℚ) := le_trans ha (Int.le_ceil t)
    exact_mod_cast h2
  have h3 : ((jsLoopCount t : ℕ) : ℤ) = Int.ceil t := by
    rw [jsLoopCount]
    exact Int.toNat_of_nonneg (le_trans h0 h1)
  refine ⟨rfl, hlen, ?_, ?_⟩
  · rw [hlen, h3]
    exact h1
  · rw [hlen, h3]
    exact Int.ceil_le.mpr (le_of_lt hb)

/-- Witness for the amended C6: the draw 21/2 from the range [10, 30) gives
a layer count within [10, 30]. -/
theorem strokes_layer_count_bounds_witness :
    (10 : ℤ) ≤ ((strokesNew (21 / 2) [Pt.zero]
        ⟨fun _ => [], 0⟩).1.layers.length : ℤ) ∧
    ((strokesNew (21 / 2) [Pt.zero]
        ⟨fun _ => [], 0⟩).1.layers.length : ℤ) ≤ 30 := by
  have h := strokes_layer_count_bounds (21 / 2) 10 30 [Pt.zero]
    ⟨fun _ => [], 0⟩ (by norm_num) (by norm_num) (by norm_num)
  exact ⟨h.2.2.1, h.2.2.2⟩

/-!
The ACF2+ pitch detector `acf2plus(buffer)`.  JS semantics captured by the
embedding: an out-of-range array read yields `undefined` (`none` here); a
comparison against `undefined`/NaN is false; arithmetic involving it gives
NaN, and `if (a)` is false for NaN and for 0.  The silence test
`Math.sqrt(sum / n) < 0.01` is embedded as the equivalent
`sum / n < 1 / 10000` (both sides of the original are nonnegative and
squaring is strictly monotone there).
-/

/-- Mean of the squared samples: the square of the source's `rms`. -/
def rmsSq (b : List ℚ) : ℚ := ((b.map fun v => v * v).sum) / (b.length : ℚ)

/-- The JS test `Math.abs(buffer[idx]) < 0.2`; an out-of-range read gives
`undefined` and the comparison is then false. -/
def nearZeroAt (b : List ℚ) (idx : ℕ) : Bool :=
  match b.get? idx with
  | some v => decide (|v| < 1 / 5)
  | none => false

/-- The trimming loop of `acf2plus`: `i` runs while `i < buffer.length / 2`
(a float comparison, so `jsLoopCount` iterations); the first `i` with
`|buffer[i]| < 0.2` latches `r1`, and the first `length - i` with
`|buffer[length - i]| < 0.2` latches `r2` (at `i = 0` that reads
`buffer[length]`, out of range, so the test is false).  The early `break`
once both are latched does not affect the latched values.  Defaults when
never latched: `r1 = 0`, `r2 = length - 1`. -/
def trimStep (b : List ℚ) (st : Option ℕ × Option ℕ) (i : ℕ) :
    Option ℕ × Option ℕ :=
  (if st.1.isNone && nearZeroAt b i then some i else st.1,
   if st.2.isNone && nearZeroAt b (b.length - i) then some (b.length - i)
   else st.2)

/-- The latched pair after the whole loop (`none` = never latched). -/
def trimScan (b : List ℚ) : Option ℕ × Option ℕ :=
  (List.range (jsLoopCount ((b.length : ℚ) / 2))).foldl (trimStep b)
    (none, none)

/-- The final `(r1, r2)` with the defaults `r1 = 0`, `r2 = length - 1`. -/
def trimBounds (b : List ℚ) : ℕ × ℕ :=
  ((trimScan b).1.getD 0, (trimScan b).2.getD (b.length - 1))

/-- `buffer = buffer.slice(r1, r2)`: keep exactly indices in [r1, r2). -/
def acfTrim (b : List ℚ) : List ℚ :=
  (b.take (trimBounds b).2).drop (trimBounds b).1

/-- The autocorrelation array:
`c[i] = Σ_{j < length - i} buffer[j] * buffer[j + i]`. -/
def acf (b : List ℚ) : List ℚ :=
  (List.range b.length).map fun i =>
    ((List.range (b.length - i)).map fun j =>
      b.getD j 0 * b.getD (j + i) 0).sum

/-- The dip walk `while (c[d] > c[d + 1]) d++`, with fuel `c.length`: the
walk advances at most `c.length - 1` times, and the comparison against the
missing `c[c.length]` is false, which stops the loop. -/
def dipGo (c : List ℚ) : ℕ → ℕ → ℕ
  | 0, d => d
  | fuel + 1, d =>
      match c.get? d, c.get? (d + 1) with
      | some x, some y => if y < x then dipGo c fuel (d + 1) else d
      | _, _ => d

/-- The first-dip lag `d` computed by the walk starting at 0. -/
def dip (c : List ℚ) : ℕ := dipGo c c.length 0

/-- The peak search `for (i = d; i < c.length; i++) if (c[i] > maxVal)`,
starting from `maxVal = -1`, `maxPos = -1`: returns the final
`(maxVal, maxPos)`. -/
def maxSearch (c : List ℚ) (d : ℕ) : ℚ × ℤ :=
  (List.range' d (c.length - d)).foldl
    (fun (st : ℚ × ℤ) i =>
      match c.get? i with
      | some v => if st.1 < v then (v, (i : ℤ)) else st
      | none => st)
    (-1, -1)

/-- Read `c[i]` at a JS index that may be negative or out of range, in
which case the result is `undefined`. -/
def jsGet (c : List ℚ) (i : ℤ) : Option ℚ :=
  if 0 ≤ i then c.get? i.toNat else none

/-- JS `Math.round`: round half toward positive infinity. -/
def jsRound (q : ℚ) : ℤ := Int.floor (q + 1 / 2)

/-- The parabolic-interpolation step: `x1 = c[maxPos - 1]`, `x2 = c[maxPos]`,
`x3 = c[maxPos + 1]`, `a = (x1 + x3 - 2 x2) / 2`, `b = (x3 - x1) / 2`; when
some neighbor is `undefined`, `a` is NaN and `if (a)` is false, so the
adjustment `maxPos - b / (2 a)` is skipped, as it also is when `a = 0`. -/
def interpolateAt (c : List ℚ) (maxPos : ℤ) : ℚ :=
  match jsGet c (maxPos - 1), jsGet c maxPos, jsGet c (maxPos + 1) with
  | some x1, some x2, some x3 =>
      let a := (x1 + x3 - 2 * x2) / 2
      let b := (x3 - x1) / 2
      if a ≠ 0 then (maxPos : ℚ) - b / (2 * a) else (maxPos : ℚ)
  | _, _, _ => (maxPos : ℚ)

/-- Result of `acf2plus`: `noSignal` is the JS `return false`; `infinite`
is the JS `Infinity` produced by `sampleRate / 0`; `freq f` is a rounded
finite frequency. -/
inductive AcfResult where
  | noSignal : AcfResult
  | infinite : AcfResult
  | freq : ℤ → AcfResult
deriving DecidableEq, Repr

/-- The autocorrelation of the trimmed buffer. -/
def acfOf (buffer : List ℚ) : List ℚ := acf (acfTrim buffer)

/-- The peak lag `maxPos` of `acf2plus` before interpolation. -/
def maxPosOf (buffer : List ℚ) : ℤ :=
  (maxSearch (acfOf buffer) (dip (acfOf buffer))).2

/-- `acf2plus(buffer)` for a given `audio.sampleRate`: silence check, trim,
autocorrelation, dip-then-peak search, interpolation, and the final
`return round(audio.sampleRate / maxPos)`. -/
def acf2plus (rate : ℚ) (buffer : List ℚ) : AcfResult :=
  if rmsSq buffer < 1 / 10000 then .noSignal
  else
    let pos := interpolateAt (acfOf buffer) (maxPosOf buffer)
    if pos = 0 then .infinite else .freq (jsRound (rate / pos))

/-- Claim C9: for every buffer of length ≥ 1 whose RMS amplitude is below
the 0.01 silence threshold — in particular any all-zero buffer —
`acf2plus` returns the no-signal value (`false`) and performs no further
processing. -/
theorem acf2plus_silence (rate : ℚ) (b : List ℚ) (_h1 : 1 ≤ b.length) :
    (rmsSq b < 1 / 10000 → acf2plus rate b = .noSignal) ∧
    ((∀ v ∈ b, v = 0) → acf2plus rate b = .noSignal) := by
  constructor
  · intro h
    rw [acf2plus, if_pos h]
  · intro h
    have hz : rmsSq b = 0 := by
      rw [rmsSq]
      have hs : (b.map fun v => v * v).sum = 0 := by
        apply List.sum_eq_zero
        intro x hx
        obtain ⟨v, hv, rfl⟩ := List.mem_map.mp hx
        rw [h v hv]
        ring
      rw [hs, zero_div]
    rw [acf2plus, if_pos (by rw [hz]; norm_num)]

/-- Witness for C9: the all-zero one-sample buffer reports no signal. -/
theorem acf2plus_silence_witness : acf2plus 44100 [0] = .noSignal :=
  (acf2plus_silence 44100 [0] (by decide)).2 (by decide)

theorem foldl_latch_some {α : Type} (p : ℕ → Bool) (f : ℕ → α) (l : List ℕ)
    (x : α) :
    l.foldl (fun st i => if st.isNone && p i then some (f i) else st)
      (some x) = some x := by
  induction l with
  | nil => rfl
  | cons a l ih => simpa using ih

theorem foldl_latch {α : Type} (p : ℕ → Bool) (f : ℕ → α) (l : List ℕ) :
    l.foldl (fun st i => if st.isNone && p i then some (f i) else st) none =
      (l.find? p).map f := by
  induction l with
  | nil => rfl
  | cons a l ih =>
      by_cases h : p a
      · rw [List.foldl_cons, List.find?_cons_of_pos _ h]
        simp only [Option.isNone_none, h, Bool.and_self, if_pos]
        rw [foldl_latch_some]
        rfl
      · rw [List.foldl_cons, List.find?_cons_of_neg _ h]
        simp only [Option.isNone_none, h, Bool.and_false, if_neg]
        simpa using ih

theorem foldl_pair {α β : Type} (g1 : α → ℕ → α) (g2 : β → ℕ → β)
    (l : List ℕ) (a : α) (b : β) :
    l.foldl (fun st i => (g1 st.1 i, g2 st.2 i)) (a, b) =
      (l.foldl g1 a, l.foldl g2 b) := by
  induction l generalizing a b with
  | nil => rfl
  | cons x l ih => simp [List.foldl_cons, ih]

theorem trimScan_eq (b : List ℚ) :
    trimScan b =
      ((List.range (jsLoopCount ((b.length : ℚ) / 2))).find? fun i =>
          nearZeroAt b i,
       (((List.range (jsLoopCount ((b.length : ℚ) / 2))).find? fun i =>
          nearZeroAt b (b.length - i)).map fun i => b.length - i)) := by
  have hts : trimStep b = fun (st : Option ℕ × Option ℕ) i =>
      ((fun (o : Option ℕ) i =>
          if o.isNone && nearZeroAt b i then some i else o) st.1 i,
       (fun (o : Option ℕ) i =>
          if o.isNone && nearZeroAt b (b.length - i) then
            some (b.length - i) else o) st.2 i) := rfl
  rw [trimScan, hts,
    foldl_pair
      (fun (o : Option ℕ) i =>
        if o.isNone && nearZeroAt b i then some i else o)
      (fun (o : Option ℕ) i =>
        if o.isNone && nearZeroAt b (b.length - i) then some (b.length - i)
        else o)]
  rw [foldl_latch (fun i => nearZeroAt b i) (fun i => i),
    foldl_latch (fun i => nearZeroAt b (b.length - i)) (fun i => b.length - i)]
  simp

/-- Claim C8 (amended): after the RMS check passes, the trim keeps exactly
the index window [r1, r2) of the buffer, where `r1` is the FIRST index in
the scanned front half whose sample is near-zero (`|v| < 0.2`), defaulting
to 0, and `r2` is `length - i` for the first `i` in the scan with
`buffer[length - i]` near-zero (the latest near-zero position, scanning
from the end), defaulting to `length - 1`: the code removes the loud
leading samples up to the first near-zero sample and everything from the
last near-zero sample onward (always at least the final sample), not the
near-zero samples themselves. -/
theorem acfTrim_window (b : List ℚ) :
    acfTrim b = (b.take (trimBounds b).2).drop (trimBounds b).1 ∧
    (trimBounds b).1 =
      (((List.range (jsLoopCount ((b.length : ℚ) / 2))).find? fun i =>
        nearZeroAt b i).getD 0) ∧
    (trimBounds b).2 =
      ((((List.range (jsLoopCount ((b.length : ℚ) / 2))).find? fun i =>
        nearZeroAt b (b.length - i)).map fun i => b.length - i).getD
        (b.length - 1)) := by
  refine ⟨rfl, ?_, ?_⟩
  · rw [trimBounds, trimScan_eq]
  · rw [trimBounds, trimScan_eq]

/-- The spec's description of the trimming for claim C8: remove exactly the
leading and the trailing samples whose absolute value is below 0.2 from
both ends, keeping the rest. -/
def trimSpecDesc (b : List ℚ) : List ℚ :=
  ((b.dropWhile fun v => |v| < 1 / 5).reverse.dropWhile
    fun v => |v| < 1 / 5).reverse

/-- Claim C8 counterexample: for the buffer [0, 1, 1, 1] (which passes the
RMS check), the code keeps [0, 1, 1] — retaining the leading near-zero
sample and dropping the loud final sample — while removing the near-zero
samples from both ends, as the claim describes, would give [1, 1, 1]. -/
theorem acfTrim_not_spec_cex :
    ¬ rmsSq [0, 1, 1, 1] < 1 / 10000 ∧
    acfTrim [0, 1, 1, 1] = [0, 1, 1] ∧
    trimSpecDesc [0, 1, 1, 1] = [1, 1, 1] ∧
    acfTrim [0, 1, 1, 1] ≠ trimSpecDesc [0, 1, 1, 1] := by
  have hjl : jsLoopCount ((([0, 1, 1, 1] : List ℚ).length : ℚ) / 2) = 2 := by
    have hc : Int.ceil ((([0, 1, 1, 1] : List ℚ).length : ℚ) / 2) = 2 := by
      norm_num
    rw [jsLoopCount, hc]
    rfl
  have hb : trimBounds [0, 1, 1, 1] = (0, 3) := by
    rw [trimBounds, trimScan, hjl]
    norm_num [trimStep, nearZeroAt, List.range_succ]
  have htrim : acfTrim [0, 1, 1, 1] = [0, 1, 1] := by
    rw [acfTrim, hb]
    rfl
  have hspec : trimSpecDesc [0, 1, 1, 1] = [1, 1, 1] := by
    norm_num [trimSpecDesc, List.dropWhile]
  refine ⟨by norm_num [rmsSq], htrim, hspec, ?_⟩
  rw [htrim, hspec]
  intro h
  exact absurd (List.head_eq_of_cons_eq h) (by norm_num)

theorem interpolateAt_oob (c : List ℚ) (mp : ℤ)
    (h : jsGet c (mp - 1) = none ∨ jsGet c (mp + 1) = none) :
    interpolateAt c mp = (mp : ℚ) := by
  unfold interpolateAt
  cases h1 : jsGet c (mp - 1) with
  | none => rfl
  | some x1 =>
      cases h2 : jsGet c mp with
      | none => rfl
      | some x2 =>
          cases h3 : jsGet c (mp + 1) with
          | none => rfl
          | some x3 =>
              rcases h with h | h
              · rw [h1] at h
                exact absurd h (by simp)
              · rw [h3] at h
                exact absurd h (by simp)

theorem acf2plus_eval (rate : ℚ) (buffer : List ℚ)
    (hrms : ¬ rmsSq buffer < 1 / 10000) :
    acf2plus rate buffer =
      if interpolateAt (acfOf buffer) (maxPosOf buffer) = 0 then .infinite
      else .freq (jsRound (rate /
        interpolateAt (acfOf buffer) (maxPosOf buffer))) := by
  rw [acf2plus, if_neg hrms]

/-- Claim C7 (amended): when the autocorrelation peak is found at the first
or the last lag index, `acf2plus` does not crash — the missing neighbor
reads as `undefined`, the interpolation coefficient is NaN, `if (a)` is
false and the parabolic adjustment is skipped — but it does NOT signal "no
pitch": it returns the un-interpolated `round(sampleRate / maxPos)`, which
is a finite frequency at the last index and the JS `Infinity`
(`sampleRate / 0`) at index 0. -/
theorem acf2plus_degenerate_peak (rate : ℚ) (buffer : List ℚ)
    (hrms : ¬ rmsSq buffer < 1 / 10000) :
    (maxPosOf buffer = 0 → acf2plus rate buffer = .infinite) ∧
    (2 ≤ (acfOf buffer).length →
      maxPosOf buffer = ((acfOf buffer).length : ℤ) - 1 →
      acf2plus rate buffer =
        .freq (jsRound (rate / ((maxPosOf buffer : ℤ) : ℚ)))) := by
  constructor
  · intro h0
    have hnone : jsGet (acfOf buffer) (maxPosOf buffer - 1) = none := by
      rw [h0, jsGet, if_neg (by norm_num)]
    have hint : interpolateAt (acfOf buffer) (maxPosOf buffer) = 0 := by
      rw [interpolateAt_oob _ _ (Or.inl hnone), h0]
      norm_num
    rw [acf2plus_eval rate buffer hrms, hint, if_pos rfl]
  · intro h2 hmp
    have hnone : jsGet (acfOf buffer) (maxPosOf buffer + 1) = none := by
      rw [hmp, jsGet, if_pos (by omega)]
      have hidx : (((acfOf buffer).length : ℤ) - 1 + 1).toNat =
          (acfOf buffer).length := by omega
      rw [hidx]
      exact List.get?_eq_none.mpr le_rfl
    have hint : interpolateAt (acfOf buffer) (maxPosOf buffer) =
        ((maxPosOf buffer : ℤ) : ℚ) :=
      interpolateAt_oob _ _ (Or.inr hnone)
    have hpos : ((maxPosOf buffer : ℤ) : ℚ) ≠ 0 := by
      rw [hmp]
      intro hq
      have hz : ((acfOf buffer).length : ℤ) - 1 = 0 := by exact_mod_cast hq
      omega
    rw [acf2plus_eval rate buffer hrms, hint, if_neg hpos]

theorem rmsSq_example : ¬ rmsSq [1, -1, 1, -1] < 1 / 10000 := by
  norm_num [rmsSq]

theorem trimBounds_example : trimBounds [1, -1, 1, -1] = (0, 3) := by
  have hc : Int.ceil ((([1, -1, 1, -1] : List ℚ).length : ℚ) / 2) = 2 := by
    norm_num
  have hjl : jsLoopCount ((([1, -1, 1, -1] : List ℚ).length : ℚ) / 2) = 2 := by
    rw [jsLoopCount, hc]
    rfl
  rw [trimBounds, trimScan, hjl]
  norm_num [trimStep, nearZeroAt, List.range_succ]

theorem acfOf_example : acfOf [1, -1, 1, -1] = [3, -2, 1] := by
  have htrim : acfTrim [1, -1, 1, -1] = [1, -1, 1] := by
    rw [acfTrim, trimBounds_example]
    rfl
  rw [acfOf, htrim]
  norm_num [acf, List.range_succ, List.getD]

theorem maxPosOf_example : maxPosOf [1, -1, 1, -1] = 2 := by
  rw [maxPosOf, acfOf_example]
  rfl

/-- Claim C7 counterexample: for the buffer [1, -1, 1, -1] (sample rate
44100) the autocorrelation of the trimmed buffer is [3, -2, 1], the peak is
found at the LAST lag index (2, with no right interpolation neighbor), and
`acf2plus` returns the frequency `round(44100 / 2) = 22050` — not the
"no pitch detected" result the claim requires. -/
theorem acf2plus_edge_peak_cex :
    maxPosOf [1, -1, 1, -1] = ((acfOf [1, -1, 1, -1]).length : ℤ) - 1 ∧
    acf2plus 44100 [1, -1, 1, -1] = .freq 22050 ∧
    AcfResult.freq 22050 ≠ .noSignal := by
  have hmp : maxPosOf [1, -1, 1, -1] = 2 := maxPosOf_example
  refine ⟨by rw [hmp, acfOf_example]; rfl, ?_, by simp⟩
  have hnone : jsGet (acfOf [1, -1, 1, -1]) (2 + 1) = none := by
    rw [acfOf_example]
    rfl
  have hint : interpolateAt (acfOf [1, -1, 1, -1])
      (maxPosOf [1, -1, 1, -1]) = 2 := by
    rw [hmp, interpolateAt_oob _ _ (Or.inr hnone)]
    norm_num
  rw [acf2plus_eval 44100 [1, -1, 1, -1] rmsSq_example, hint,
    if_neg (by norm_num)]
  norm_num [jsRound]

/-- Witness for the amended C7: on [1, -1, 1, -1] at rate 44100 the peak is
at the last index and the detector returns the finite frequency 22050. -/
theorem acf2plus_degenerate_peak_witness :
    acf2plus 44100 [1, -1, 1, -1] = .freq 22050 := by
  have h := (acf2plus_degenerate_peak 44100 [1, -1, 1, -1] rmsSq_example).2
    (by rw [acfOf_example]; norm_num)
    (by rw [maxPosOf_example, acfOf_example]; rfl)
  rw [h, maxPosOf_example]
  norm_num [jsRound]

/-!
The mouse-input boundary (claim C10): `saveMouse()` stores the pointer
position whenever `mouseX <= width && mouseY <= height`, while the frame
loop paints from the saved position only under
`lastMouse.x > 0 && lastMouse.y > 0`, resetting it to (0, 0) afterwards;
otherwise it leaves the saved position untouched.
-/

/-- `saveMouse()`: save the position when it is inside the canvas bounds. -/
def saveMouse (mouseX mouseY w h : ℚ) (last : ℚ × ℚ) : ℚ × ℚ :=
  if mouseX ≤ w ∧ mouseY ≤ h then (mouseX, mouseY) else last

/-- The saved-mouse branch of one `draw()` frame: the anchor painted this
frame (if any), and the new `lastMouse`. -/
def drawMouseStep (last : ℚ × ℚ) : Option (ℚ × ℚ) × (ℚ × ℚ) :=
  if 0 < last.1 ∧ 0 < last.2 then (some last, (0, 0)) else (none, last)

/-- Claim C10: the frame loop paints from the saved mouse position only
when both coordinates are strictly positive, so an in-bounds pointer event
with x = 0 or y = 0 (the canvas's left or top edge) is saved by
`saveMouse()` but never painted: the saved value is a fixed point of the
frame loop and no later frame fires a paint from it. -/
theorem mouse_edge_zero_no_paint (mx my w h : ℚ) (hx : mx ≤ w) (hy : my ≤ h)
    (_hnn : 0 ≤ mx ∧ 0 ≤ my) (hedge : mx = 0 ∨ my = 0) (last : ℚ × ℚ) :
    saveMouse mx my w h last = (mx, my) ∧
    (∀ l : ℚ × ℚ, ((drawMouseStep l).1).isSome → 0 < l.1 ∧ 0 < l.2) ∧
    (∀ k : ℕ, (fun st => (drawMouseStep st).2)^[k] (mx, my) = (mx, my)) ∧
    (drawMouseStep (mx, my)).1 = none := by
  have hcond : ¬ (0 < mx ∧ 0 < my) := by
    rcases hedge with h | h
    · rw [h]
      intro hc
      exact lt_irrefl 0 hc.1
    · rw [h]
      intro hc
      exact lt_irrefl 0 hc.2
  have hstep : drawMouseStep (mx, my) = (none, (mx, my)) := by
    simp [drawMouseStep, hcond]
  refine ⟨?_, ?_, ?_, ?_⟩
  · rw [saveMouse, if_pos ⟨hx, hy⟩]
  · intro l hl
    by_cases hc : 0 < l.1 ∧ 0 < l.2
    · exact hc
    · rw [drawMouseStep, if_neg hc] at hl
      simp at hl
  · intro k
    induction k with
    | zero => rfl
    | succ k ih =>
        rw [Function.iterate_succ_apply]
        simpa [hstep] using ih
  · rw [hstep]

/-- Witness for C10: the in-bounds pointer event (0, 5) on a 100 x 100
canvas is saved, yet the next frame paints nothing from it. -/
theorem mouse_edge_zero_no_paint_witness :
    saveMouse 0 5 100 100 (3, 4) = (0, 5) ∧
    (drawMouseStep (0, 5)).1 = none := by
  have h := mouse_edge_zero_no_paint 0 5 100 100 (by norm_num) (by norm_num)
    (by norm_num) (Or.inl rfl) (3, 4)
  exact ⟨h.1, h.2.2.2⟩
